import Mathlib

/-!
Verification development for the IVA Monte-Carlo benchmark harness
(`experiment_iva.py` of the `auxiva-ipa` repository).

The numerical core is embedded shallowly over exact arithmetic:
`numpy` complex arrays of shape `(n_freq, n_chan, n_chan)` become
`Fin F → Matrix (Fin n) (Fin n) ℂ`, and real scalars become `ℝ`.
`scipy.optimize.linear_sum_assignment` is an external collaborator whose
source is not part of the repository; it is modelled (see `lsa`) as the
optimal-assignment solver with lexicographic tie-breaking, following the
specification's own description of its tie behaviour.
-/

namespace Experiment

open Finset

/-- A frequency-indexed stack of square complex matrices, i.e. a `numpy`
array of shape `(n_freq, n_chan, n_chan)` and dtype `complex128`. -/
abbrev FMat (F n : ℕ) : Type := Fin F → Matrix (Fin n) (Fin n) ℂ

variable {F n : ℕ}

/-- The per-frequency matrix product `P = W @ A`, formed formed at the start of
`scale_permute` (line 68 of `experiment_iva.py`). -/
noncomputable def Pprod (W A : FMat F n) : FMat F n := fun f => W f * A f

/-- The divisor `scale = np.max(np.abs(P), axis=-1, keepdims=True)` (line 72): the
largest entry magnitude in row `r` of `P[f]`. -/
noncomputable def scale [NeZero n] (W A : FMat F n) (f : Fin F) (r : Fin n) : ℝ :=
  univ.sup' univ_nonempty fun c => Complex.abs (Pprod W A f r c)

/-- The scale-normalised product `P /= scale` (line 74). -/
noncomputable def Pscaled [NeZero n] (W A : FMat F n) : FMat F n :=
  fun f => Matrix.of fun r c => Pprod W A f r c / ((scale W A f r : ℝ) : ℂ)

/-- The cost matrix `err_mat` (lines 77-79) computed from an
already-scale-normalised stack `Ps`:
`err_mat[i, j] = mean over (f, k) of (eye[i, k] - |Ps[f, j, k]|) ** 2`. -/
noncomputable def errOf (Ps : FMat F n) : Matrix (Fin n) (Fin n) ℝ :=
  Matrix.of fun i j =>
    (∑ f : Fin F, ∑ k : Fin n,
      ((if i = k then (1 : ℝ) else 0) - Complex.abs (Ps f j k)) ^ 2) / ((F * n : ℕ) : ℝ)

/-- The matrix `err_mat` of `scale_permute` (lines 77-79). -/
noncomputable def err_mat [NeZero n] (W A : FMat F n) : Matrix (Fin n) (Fin n) ℝ :=
  errOf (Pscaled W A)

/-- The total cost of assigning row pattern `i` to row `σ i`:
`∑ i, C[i, σ i]`, the quantity `linear_sum_assignment` minimises. -/
def acost (C : Matrix (Fin n) (Fin n) ℝ) (σ : Equiv.Perm (Fin n)) : ℝ :=
  ∑ i, C i (σ i)

/-- Predicate: `σ` is an optimal assignment for cost matrix `C`. -/
def isOpt (C : Matrix (Fin n) (Fin n) ℝ) (σ : Equiv.Perm (Fin n)) : Prop :=
  ∀ τ, acost C σ ≤ acost C τ

/-- Digits of a permutation read in lexicographic significance order:
position `0` of `σ` is the most significant digit. -/
def permDigits (σ : Equiv.Perm (Fin n)) : Fin n → ℕ := fun i => (σ (Fin.rev i) : ℕ)

/-- Base-`b` value of a digit string (least significant digit first). -/
def digitsVal (b : ℕ) {m : ℕ} (g : Fin m → ℕ) : ℕ := ∑ i, g i * b ^ (i : ℕ)

/-- Numeric key whose order on permutations is the lexicographic order of
`(σ 0, σ 1, ...)`. -/
def pkey (σ : Equiv.Perm (Fin n)) : ℕ := digitsVal n (permDigits σ)

theorem digitsVal_inj (b : ℕ) : ∀ {m : ℕ} (g h : Fin m → ℕ),
    (∀ i, g i < b) → (∀ i, h i < b) → digitsVal b g = digitsVal b h → g = h := by
  intro m
  induction m with
  | zero => intro g h _ _ _; funext i; exact absurd i.2 (Nat.not_lt_zero _)
  | succ m ih =>
    intro g h hg hh e
    have hsplit : ∀ u : Fin (m + 1) → ℕ,
        digitsVal b u = u 0 + b * digitsVal b (fun i : Fin m => u i.succ) := by
      intro u
      unfold digitsVal
      rw [Fin.sum_univ_succ]
      simp only [Fin.val_zero, pow_zero, mul_one, Fin.val_succ]
      congr 1
      rw [Finset.mul_sum]
      refine Finset.sum_congr rfl fun i _ => ?_
      ring
    rw [hsplit g, hsplit h] at e
    have hb : 0 < b := lt_of_le_of_lt (Nat.zero_le _) (hg 0)
    have h0 : g 0 = h 0 := by
      have := congrArg (fun x => x % b) e
      simpa [Nat.add_mul_mod_self_left, Nat.mod_eq_of_lt (hg 0), Nat.mod_eq_of_lt (hh 0)]
        using this
    have htail : (fun i : Fin m => g i.succ) = fun i : Fin m => h i.succ := by
      refine ih _ _ (fun i => hg i.succ) (fun i => hh i.succ) ?_
      have e' : b * digitsVal b (fun i : Fin m => g i.succ)
          = b * digitsVal b (fun i : Fin m => h i.succ) := by omega
      exact Nat.eq_of_mul_eq_mul_left hb e'
    funext i
    refine Fin.cases ?_ ?_ i
    · exact h0
    · intro j; exact congrFun htail j

theorem pkey_injective : Function.Injective (pkey (n := n)) := by
  intro σ τ e
  have hd : permDigits σ = permDigits τ := by
    refine digitsVal_inj n _ _ (fun i => (σ _).2) (fun i => (τ _).2) e
  have : ∀ j, σ j = τ j := by
    intro j
    have := congrFun hd (Fin.rev j)
    simpa [permDigits, Fin.rev_rev, Fin.val_eq_val] using this
  exact Equiv.ext this

/-- Lexicographic linear order on permutations, used to make the model of
the assignment solver's tie-breaking deterministic. -/
noncomputable instance : LinearOrder (Equiv.Perm (Fin n)) :=
  LinearOrder.lift' pkey pkey_injective

theorem perm_le_iff (σ τ : Equiv.Perm (Fin n)) : σ ≤ τ ↔ pkey σ ≤ pkey τ := Iff.rfl

/-- The set of optimal assignments for `C`. -/
noncomputable def minimizers (C : Matrix (Fin n) (Fin n) ℝ) :
    Finset (Equiv.Perm (Fin n)) :=
  @Finset.filter _ (fun σ => isOpt C σ) (Classical.decPred _) univ

theorem mem_minimizers {C : Matrix (Fin n) (Fin n) ℝ} {σ : Equiv.Perm (Fin n)} :
    σ ∈ minimizers C ↔ isOpt C σ := by
  unfold minimizers
  rw [@Finset.mem_filter _ _ (Classical.decPred _)]
  simp

theorem minimizers_nonempty (C : Matrix (Fin n) (Fin n) ℝ) :
    (minimizers C).Nonempty := by
  obtain ⟨σ, -, hσ⟩ := Finset.exists_min_image univ (acost C) ⟨1, Finset.mem_univ 1⟩
  exact ⟨σ, mem_minimizers.mpr fun τ => hσ τ (Finset.mem_univ τ)⟩

/-- Model of `scipy.optimize.linear_sum_assignment` on a square cost matrix.
Modelled from the spec: the solver returns the optimal (minimum total cost)
assignment, "ties broken by the assignment solver's canonical lexicographic
behavior"; scipy's source is external to this repository, so the solver is
modelled as the lexicographically least cost-minimising permutation. -/
noncomputable def lsa (C : Matrix (Fin n) (Fin n) ℝ) : Equiv.Perm (Fin n) :=
  (minimizers C).min' (minimizers_nonempty C)

theorem lsa_isOpt (C : Matrix (Fin n) (Fin n) ℝ) : isOpt C (lsa C) :=
  mem_minimizers.mp ((minimizers C).min'_mem (minimizers_nonempty C))

theorem lsa_eq_of_unique {C : Matrix (Fin n) (Fin n) ℝ} {σ : Equiv.Perm (Fin n)}
    (hu : ∀ τ, isOpt C τ → τ = σ) : lsa C = σ :=
  hu _ (lsa_isOpt C)

/-- One entry of the `isr` array filled by `ISR` (lines 96-102), computed
from the scale-corrected product `Ps` and the assignment `σ`: entry
`(f, r, c)` is `0` on the diagonal (`np.zeros` is never overwritten there)
and `|Ps[f, σ r, c]|² / |Ps[f, σ r, r]|²` off the diagonal, `Ps[:, σ, :]`
being the permutation-corrected product. -/
noncomputable def isrEntryOf (Ps : FMat F n) (σ : Equiv.Perm (Fin n))
    (f : Fin F) (r c : Fin n) : ℝ :=
  if r = c then 0
  else Complex.abs (Ps f (σ r) c) ^ 2 / Complex.abs (Ps f (σ r) r) ^ 2

/-- The value `np.mean(isr)` (line 104): the mean over the whole `(F, n, n)` array. -/
noncomputable def isrMean [NeZero n] (W A : FMat F n) : ℝ :=
  (∑ f : Fin F, ∑ r : Fin n, ∑ c : Fin n,
    isrEntryOf (Pscaled W A) (lsa (err_mat W A)) f r c) / ((F * n * n : ℕ) : ℝ)

/-- The metric `ISR(W, A) = 10 * np.log10(np.mean(isr))` (lines 89-104). -/
noncomputable def ISR [NeZero n] (W A : FMat F n) : ℝ :=
  10 * Real.logb 10 (isrMean W A)

theorem scale_nonneg [NeZero n] (W A : FMat F n) (f : Fin F) (r : Fin n) :
    0 ≤ scale W A f r := by
  obtain ⟨c⟩ := (inferInstance : Nonempty (Fin n))
  unfold scale
  exact le_trans (Complex.abs.nonneg _)
    (Finset.le_sup' (fun c => Complex.abs (Pprod W A f r c)) (Finset.mem_univ c))

theorem abs_Pscaled [NeZero n] (W A : FMat F n) (f : Fin F) (r c : Fin n) :
    Complex.abs (Pscaled W A f r c) = Complex.abs (Pprod W A f r c) / scale W A f r := by
  unfold Pscaled
  rw [Matrix.of_apply, map_div₀, Complex.abs_ofReal, abs_of_nonneg (scale_nonneg W A f r)]

/-- Applying the channel relabeling `π` and the per-row complex scaling `D`
to a demixing estimate: row `r` of `transform π D W` is `D r` times row
`π r` of `W`, at every frequency. -/
noncomputable def transform (π : Equiv.Perm (Fin n)) (D : Fin n → ℂ) (W : FMat F n) :
    FMat F n :=
  fun f => Matrix.of fun r c => D r * W f (π r) c

theorem Pprod_transform (π : Equiv.Perm (Fin n)) (D : Fin n → ℂ) (W A : FMat F n)
    (f : Fin F) (r : Fin n) (c : Fin n) :
    Pprod (transform π D W) A f r c = D r * Pprod W A f (π r) c := by
  unfold Pprod transform
  simp only [Matrix.mul_apply, Matrix.of_apply, Finset.mul_sum, mul_assoc]

theorem sup'_mul_nonneg [NeZero n] (a : ℝ) (ha : 0 ≤ a) (g : Fin n → ℝ) :
    (univ.sup' univ_nonempty fun c => a * g c) = a * univ.sup' univ_nonempty g := by
  apply le_antisymm
  · rw [Finset.sup'_le_iff]
    intro b _
    exact mul_le_mul_of_nonneg_left (Finset.le_sup' g (Finset.mem_univ b)) ha
  · obtain ⟨i, hi, he⟩ := Finset.exists_mem_eq_sup' univ_nonempty g
    rw [he]
    exact Finset.le_sup' (fun c => a * g c) hi

theorem scale_transform [NeZero n] (π : Equiv.Perm (Fin n)) (D : Fin n → ℂ)
    (W A : FMat F n) (f : Fin F) (r : Fin n) :
    scale (transform π D W) A f r = Complex.abs (D r) * scale W A f (π r) := by
  unfold scale
  rw [← sup'_mul_nonneg _ (Complex.abs.nonneg (D r))]
  congr 1
  funext c
  rw [Pprod_transform, map_mul]

theorem abs_Pscaled_transform [NeZero n] {π : Equiv.Perm (Fin n)} {D : Fin n → ℂ}
    (W A : FMat F n) {r : Fin n} (hD : D r ≠ 0) (f : Fin F) (c : Fin n) :
    Complex.abs (Pscaled (transform π D W) A f r c)
      = Complex.abs (Pscaled W A f (π r) c) := by
  rw [abs_Pscaled, abs_Pscaled, scale_transform, Pprod_transform, map_mul]
  exact mul_div_mul_left _ _ (Complex.abs.ne_zero_iff.mpr hD)

theorem err_mat_transform [NeZero n] {π : Equiv.Perm (Fin n)} {D : Fin n → ℂ}
    (W A : FMat F n) (hD : ∀ r, D r ≠ 0) (i j : Fin n) :
    err_mat (transform π D W) A i j = err_mat W A i (π j) := by
  unfold err_mat errOf
  rw [Matrix.of_apply, Matrix.of_apply]
  congr 1
  refine Finset.sum_congr rfl fun f _ => Finset.sum_congr rfl fun k _ => ?_
  rw [abs_Pscaled_transform W A (hD j)]

theorem acost_transform [NeZero n] {π : Equiv.Perm (Fin n)} {D : Fin n → ℂ}
    (W A : FMat F n) (hD : ∀ r, D r ≠ 0) (σ : Equiv.Perm (Fin n)) :
    acost (err_mat (transform π D W) A) σ = acost (err_mat W A) (σ.trans π) := by
  unfold acost
  exact Finset.sum_congr rfl fun i _ => err_mat_transform W A hD i (σ i)

theorem isOpt_transform [NeZero n] {π : Equiv.Perm (Fin n)} {D : Fin n → ℂ}
    (W A : FMat F n) (hD : ∀ r, D r ≠ 0) (σ : Equiv.Perm (Fin n)) :
    isOpt (err_mat (transform π D W) A) σ ↔ isOpt (err_mat W A) (σ.trans π) := by
  constructor
  · intro h τ
    have h2 := h (τ.trans π.symm)
    rw [acost_transform W A hD, acost_transform W A hD] at h2
    have h3 : (τ.trans π.symm).trans π = τ :=
      Equiv.ext fun x => π.apply_symm_apply (τ x)
    rwa [h3] at h2
  · intro h τ
    rw [acost_transform W A hD, acost_transform W A hD]
    exact h (τ.trans π)

/-- C1 (amended): if the assignment problem arising in `scale_permute` for
`(W, A)` has a unique optimal permutation, then the ISR metric is invariant
under any channel relabeling `π` and any per-row nonzero complex scaling `D`
of the estimate.  (Without the uniqueness hypothesis the law fails at
cost ties: see the counterexample.) -/
theorem ISR_scale_perm_invariant [NeZero n] (W A : FMat F n)
    (π : Equiv.Perm (Fin n)) (D : Fin n → ℂ) (hD : ∀ r, D r ≠ 0)
    (hu : ∀ σ τ, isOpt (err_mat W A) σ → isOpt (err_mat W A) τ → σ = τ) :
    ISR (transform π D W) A = ISR W A := by
  have h1 : (lsa (err_mat (transform π D W) A)).trans π = lsa (err_mat W A) :=
    hu _ _ ((isOpt_transform W A hD _).mp (lsa_isOpt _)) (lsa_isOpt _)
  have hmean : isrMean (transform π D W) A = isrMean W A := by
    unfold isrMean
    congr 1
    refine Finset.sum_congr rfl fun f _ => Finset.sum_congr rfl fun r _ =>
      Finset.sum_congr rfl fun c _ => ?_
    unfold isrEntryOf
    by_cases hrc : r = c
    · rw [if_pos hrc, if_pos hrc]
    · rw [if_neg hrc, if_neg hrc]
      have key : ∀ c' : Fin n,
          Complex.abs (Pscaled (transform π D W) A f (lsa (err_mat (transform π D W) A) r) c')
            = Complex.abs (Pscaled W A f (lsa (err_mat W A) r) c') := by
        intro c'
        rw [abs_Pscaled_transform W A (hD _) f c']
        have hr : π (lsa (err_mat (transform π D W) A) r) = lsa (err_mat W A) r := by
          have := congrFun (congrArg (fun (e : Equiv.Perm (Fin n)) => (e : Fin n → Fin n)) h1) r
          simpa using this
        rw [hr]
      rw [key c, key r]
  unfold ISR
  rw [hmean]

/-- Witness for `ISR_scale_perm_invariant` at a concrete input
(one frequency bin, one channel, identity data, trivial scaling). -/
theorem ISR_scale_perm_invariant_witness :
    (∀ r : Fin 1, (fun _ : Fin 1 => (1 : ℂ)) r ≠ 0) ∧
    ISR (transform 1 (fun _ => (1 : ℂ)) (fun _ : Fin 1 => (1 : Matrix (Fin 1) (Fin 1) ℂ)))
        (fun _ : Fin 1 => (1 : Matrix (Fin 1) (Fin 1) ℂ))
      = ISR (fun _ : Fin 1 => (1 : Matrix (Fin 1) (Fin 1) ℂ))
          (fun _ : Fin 1 => (1 : Matrix (Fin 1) (Fin 1) ℂ)) :=
  ⟨fun _ => one_ne_zero,
    ISR_scale_perm_invariant _ _ 1 (fun _ => (1 : ℂ)) (fun _ => one_ne_zero)
      (fun σ τ _ _ => Equiv.ext fun x => Subsingleton.elim (σ x) (τ x))⟩

theorem sup2 (H : (univ : Finset (Fin 2)).Nonempty) (g : Fin 2 → ℝ) :
    univ.sup' H g = max (g 0) (g 1) := by
  apply le_antisymm
  · rw [Finset.sup'_le_iff]
    intro b _
    fin_cases b
    · exact le_max_left _ _
    · exact le_max_right _ _
  · exact max_le (Finset.le_sup' g (Finset.mem_univ 0)) (Finset.le_sup' g (Finset.mem_univ 1))

theorem Pprod_one (W : FMat F n) : Pprod W (fun _ => 1) = W := by
  funext f
  unfold Pprod
  rw [mul_one]

theorem perm_fin_two (τ : Equiv.Perm (Fin 2)) : τ = 1 ∨ τ = Equiv.swap 0 1 := by
  revert τ; decide

/-- The metric as claim C2 words it: `10·log10` of the average of the
leakage-to-target ratios taken over exactly the off-diagonal channel
pairs and all frequency bins (denominator `F·n·(n-1)`). -/
noncomputable def ISRoffDiagOnly [NeZero n] (W A : FMat F n) : ℝ :=
  10 * Real.logb 10
    ((∑ f : Fin F, ∑ r : Fin n, ∑ c : Fin n,
      isrEntryOf (Pscaled W A) (lsa (err_mat W A)) f r c) / ((F * n * (n - 1) : ℕ) : ℝ))

/-- Concrete demixing estimate for the C2 counterexample:
one frequency bin, two channels. -/
noncomputable def Wc2 : FMat 1 2 :=
  fun _ => !![((1:ℝ):ℂ), ((1/2:ℝ):ℂ); ((1/2:ℝ):ℂ), ((1:ℝ):ℂ)]

/-- Identity mixing matrix for the C2 counterexample. -/
noncomputable def Ac2 : FMat 1 2 := fun _ => 1

theorem scale_Wc2 (f : Fin 1) (r : Fin 2) : scale Wc2 Ac2 f r = 1 := by
  unfold scale
  rw [sup2]
  have h1 : Pprod Wc2 Ac2 = Wc2 := Pprod_one Wc2
  rw [h1]
  fin_cases f
  fin_cases r <;>
    · simp [Wc2, Complex.abs_ofReal]
      norm_num

theorem Pscaled_Wc2 : Pscaled Wc2 Ac2 = Wc2 := by
  funext f
  ext r c
  unfold Pscaled
  have h1 : Pprod Wc2 Ac2 = Wc2 := Pprod_one Wc2
  rw [Matrix.of_apply, scale_Wc2, h1]
  simp

theorem err_mat_Wc2 (i j : Fin 2) :
    err_mat Wc2 Ac2 i j = !![(1/8 : ℝ), 5/8; 5/8, 1/8] i j := by
  unfold err_mat errOf
  rw [Pscaled_Wc2, Matrix.of_apply]
  fin_cases i <;> fin_cases j <;>
    · rw [Fin.sum_univ_one, Fin.sum_univ_two]
      simp [Wc2, Complex.abs_ofReal]
      norm_num

theorem acost_Wc2_one : acost (err_mat Wc2 Ac2) 1 = 1/4 := by
  unfold acost
  rw [Fin.sum_univ_two]
  rw [show ((1 : Equiv.Perm (Fin 2)) 0) = 0 from rfl,
    show ((1 : Equiv.Perm (Fin 2)) 1) = 1 from rfl,
    err_mat_Wc2, err_mat_Wc2]
  norm_num

theorem acost_Wc2_swap : acost (err_mat Wc2 Ac2) (Equiv.swap 0 1) = 5/4 := by
  unfold acost
  rw [Fin.sum_univ_two]
  rw [show ((Equiv.swap (0:Fin 2) 1) 0) = 1 from rfl,
    show ((Equiv.swap (0:Fin 2) 1) 1) = 0 from rfl,
    err_mat_Wc2, err_mat_Wc2]
  norm_num

theorem lsa_Wc2 : lsa (err_mat Wc2 Ac2) = 1 := by
  refine lsa_eq_of_unique fun τ hτ => ?_
  rcases perm_fin_two τ with h | h
  · exact h
  · exfalso
    have := hτ 1
    rw [h, acost_Wc2_one, acost_Wc2_swap] at this
    norm_num at this

theorem isrSum_Wc2 :
    (∑ f : Fin 1, ∑ r : Fin 2, ∑ c : Fin 2,
      isrEntryOf (Pscaled Wc2 Ac2) (lsa (err_mat Wc2 Ac2)) f r c) = 1/2 := by
  rw [Pscaled_Wc2, lsa_Wc2]
  rw [Fin.sum_univ_one, Fin.sum_univ_two, Fin.sum_univ_two, Fin.sum_univ_two]
  unfold isrEntryOf
  norm_num
  simp [Wc2, Complex.abs_ofReal]
  norm_num

theorem isrMean_Wc2 : isrMean Wc2 Ac2 = 1/8 := by
  unfold isrMean
  rw [isrSum_Wc2]
  norm_num

theorem ISRoffDiagOnly_Wc2 : ISRoffDiagOnly Wc2 Ac2 = 10 * Real.logb 10 (1/4) := by
  unfold ISRoffDiagOnly
  rw [isrSum_Wc2]
  norm_num

/-- C2 counterexample: at a concrete input the value returned by `ISR` is
`10·log10(1/8)` — the off-diagonal ratio sum divided by the full entry
count `F·n·n = 4` — while the claim's off-diagonal-pairs-only average
would give `10·log10(1/4)`; the two differ, so diagonal pairs do enter
the averaging denominator of the code. -/
theorem ISR_not_offdiag_average : ISR Wc2 Ac2 ≠ ISRoffDiagOnly Wc2 Ac2 := by
  unfold ISR
  rw [isrMean_Wc2, ISRoffDiagOnly_Wc2]
  apply ne_of_lt
  have h : Real.logb 10 (1/8) < Real.logb 10 (1/4) := by
    apply Real.logb_lt_logb (by norm_num) (by norm_num) (by norm_num)
  linarith

/-- C2 (amended): `ISR` returns `10·log10` of the sum of the off-diagonal
leakage-to-target ratios over all frequency bins divided by `n_freq *
n_chan * n_chan` — the diagonal pairs contribute nothing to the numerator
but are counted by the averaging denominator (`np.mean` runs over the whole
zero-initialised `(F, n, n)` array). -/
theorem ISR_eq_offdiag_sum_over_full_count [NeZero n] (W A : FMat F n) :
    ISR W A = 10 * Real.logb 10
      ((∑ f : Fin F, ∑ r : Fin n, ∑ c ∈ Finset.univ.erase r,
        Complex.abs (Pscaled W A f (lsa (err_mat W A) r) c) ^ 2 /
          Complex.abs (Pscaled W A f (lsa (err_mat W A) r) r) ^ 2)
        / ((F * n * n : ℕ) : ℝ)) := by
  unfold ISR isrMean
  have h2 : (∑ f : Fin F, ∑ r : Fin n, ∑ c : Fin n,
      isrEntryOf (Pscaled W A) (lsa (err_mat W A)) f r c)
      = ∑ f : Fin F, ∑ r : Fin n, ∑ c ∈ Finset.univ.erase r,
        Complex.abs (Pscaled W A f (lsa (err_mat W A) r) c) ^ 2 /
          Complex.abs (Pscaled W A f (lsa (err_mat W A) r) r) ^ 2 := by
    refine Finset.sum_congr rfl fun f _ => Finset.sum_congr rfl fun r _ => ?_
    rw [← Finset.add_sum_erase _ _ (Finset.mem_univ r)]
    unfold isrEntryOf
    rw [if_pos rfl, zero_add]
    refine Finset.sum_congr rfl fun c hc => ?_
    exact if_neg (Ne.symm (Finset.mem_erase.mp hc).1)
  rw [h2]

/-- Witness for `ISR_eq_offdiag_sum_over_full_count` at the concrete input
`(Wc2, Ac2)`. -/
theorem ISR_eq_offdiag_sum_over_full_count_witness :
    ISR Wc2 Ac2 = 10 * Real.logb 10
      ((∑ f : Fin 1, ∑ r : Fin 2, ∑ c ∈ Finset.univ.erase r,
        Complex.abs (Pscaled Wc2 Ac2 f (lsa (err_mat Wc2 Ac2) r) c) ^ 2 /
          Complex.abs (Pscaled Wc2 Ac2 f (lsa (err_mat Wc2 Ac2) r) r) ^ 2)
        / ((1 * 2 * 2 : ℕ) : ℝ)) :=
  ISR_eq_offdiag_sum_over_full_count Wc2 Ac2

theorem pkey_one_le_swap :
    pkey (1 : Equiv.Perm (Fin 2)) ≤ pkey (Equiv.swap (0 : Fin 2) 1) := by
  decide

/-- On two channels the lexicographic tie-break picks the identity whenever
the identity assignment is optimal. -/
theorem lsa_eq_one_fin2 {C : Matrix (Fin 2) (Fin 2) ℝ} (h1 : isOpt C 1) :
    lsa C = 1 := by
  unfold lsa
  apply le_antisymm
  · exact Finset.min'_le _ _ (mem_minimizers.mpr h1)
  · apply Finset.le_min'
    intro y hy
    rcases perm_fin_two y with h | h
    · rw [h]
    · rw [h, perm_le_iff]
      exact pkey_one_le_swap

/-- Concrete demixing estimate for the C1 counterexample: two frequency
bins, two channels, chosen so that the two possible channel assignments
have exactly equal total cost (an assignment tie). -/
noncomputable def Wc1 : FMat 2 2 :=
  ![!![((1:ℝ):ℂ), ((1:ℝ):ℂ); ((1:ℝ):ℂ), ((3/4:ℝ):ℂ)],
    !![((1/2:ℝ):ℂ), ((1:ℝ):ℂ); ((1/4:ℝ):ℂ), ((1:ℝ):ℂ)]]

/-- Identity mixing matrix for the C1 counterexample. -/
noncomputable def Ac1 : FMat 2 2 := fun _ => 1

/-- Trivial per-row scaling (all ones) for the C1 counterexample. -/
noncomputable def Dc1 : Fin 2 → ℂ := fun _ => 1

theorem Dc1_ne_zero : ∀ r : Fin 2, Dc1 r ≠ 0 := fun _ => one_ne_zero

theorem scale_Wc1 (f : Fin 2) (r : Fin 2) : scale Wc1 Ac1 f r = 1 := by
  unfold scale
  rw [sup2]
  have h1 : Pprod Wc1 Ac1 = Wc1 := Pprod_one Wc1
  rw [h1]
  fin_cases f <;> fin_cases r <;> simp [Wc1, Complex.abs_ofReal] <;> norm_num

theorem Pscaled_Wc1 : Pscaled Wc1 Ac1 = Wc1 := by
  funext f
  ext r c
  have h1 : Pprod Wc1 Ac1 = Wc1 := Pprod_one Wc1
  unfold Pscaled
  rw [Matrix.of_apply, scale_Wc1, h1]
  simp

theorem err_mat_Wc1 (i j : Fin 2) :
    err_mat Wc1 Ac1 i j = !![(9/16 : ℝ), 17/32; 5/16, 9/32] i j := by
  unfold err_mat errOf
  rw [Pscaled_Wc1, Matrix.of_apply]
  fin_cases i <;> fin_cases j <;>
    · rw [Fin.sum_univ_two, Fin.sum_univ_two, Fin.sum_univ_two]
      simp [Wc1, Complex.abs_ofReal]
      norm_num

theorem acost_Wc1_one : acost (err_mat Wc1 Ac1) 1 = 27/32 := by
  unfold acost
  rw [Fin.sum_univ_two]
  rw [show ((1 : Equiv.Perm (Fin 2)) 0) = 0 from rfl,
    show ((1 : Equiv.Perm (Fin 2)) 1) = 1 from rfl,
    err_mat_Wc1, err_mat_Wc1]
  norm_num

theorem acost_Wc1_swap : acost (err_mat Wc1 Ac1) (Equiv.swap 0 1) = 27/32 := by
  unfold acost
  rw [Fin.sum_univ_two]
  rw [show ((Equiv.swap (0:Fin 2) 1) 0) = 1 from rfl,
    show ((Equiv.swap (0:Fin 2) 1) 1) = 0 from rfl,
    err_mat_Wc1, err_mat_Wc1]
  norm_num

theorem isOpt_Wc1_one : isOpt (err_mat Wc1 Ac1) 1 := by
  intro τ
  rcases perm_fin_two τ with h | h <;> rw [h]
  · rw [acost_Wc1_one, acost_Wc1_swap]

theorem isOpt_Wc1_swap : isOpt (err_mat Wc1 Ac1) (Equiv.swap 0 1) := by
  intro τ
  rcases perm_fin_two τ with h | h <;> rw [h]
  · rw [acost_Wc1_one, acost_Wc1_swap]

theorem lsa_Wc1 : lsa (err_mat Wc1 Ac1) = 1 := lsa_eq_one_fin2 isOpt_Wc1_one

theorem one_trans_swap :
    (1 : Equiv.Perm (Fin 2)).trans (Equiv.swap 0 1) = Equiv.swap 0 1 :=
  Equiv.ext fun _ => rfl

theorem isOpt_Wc1t_one :
    isOpt (err_mat (transform (Equiv.swap 0 1) Dc1 Wc1) Ac1) 1 := by
  refine (isOpt_transform Wc1 Ac1 Dc1_ne_zero 1).mpr ?_
  rw [one_trans_swap]
  exact isOpt_Wc1_swap

theorem lsa_Wc1t : lsa (err_mat (transform (Equiv.swap 0 1) Dc1 Wc1) Ac1) = 1 :=
  lsa_eq_one_fin2 isOpt_Wc1t_one

theorem isrSum_Wc1 :
    (∑ f : Fin 2, ∑ r : Fin 2, ∑ c : Fin 2,
      isrEntryOf (Pscaled Wc1 Ac1) (lsa (err_mat Wc1 Ac1)) f r c) = 985/144 := by
  rw [Pscaled_Wc1, lsa_Wc1]
  rw [Fin.sum_univ_two, Fin.sum_univ_two, Fin.sum_univ_two, Fin.sum_univ_two,
    Fin.sum_univ_two, Fin.sum_univ_two]
  unfold isrEntryOf
  norm_num
  simp [Wc1, Complex.abs_ofReal]
  norm_num

theorem isrMean_Wc1 : isrMean Wc1 Ac1 = 985/1152 := by
  unfold isrMean
  rw [isrSum_Wc1]
  norm_num

theorem abs_Pscaled_Wc1t (f : Fin 2) (r c : Fin 2) :
    Complex.abs (Pscaled (transform (Equiv.swap 0 1) Dc1 Wc1) Ac1 f r c)
      = Complex.abs (Wc1 f (Equiv.swap 0 1 r) c) := by
  rw [abs_Pscaled_transform Wc1 Ac1 (Dc1_ne_zero r) f c]
  rw [Pscaled_Wc1]

theorem isrSum_Wc1t :
    (∑ f : Fin 2, ∑ r : Fin 2, ∑ c : Fin 2,
      isrEntryOf (Pscaled (transform (Equiv.swap 0 1) Dc1 Wc1) Ac1)
        (lsa (err_mat (transform (Equiv.swap 0 1) Dc1 Wc1) Ac1)) f r c) = 285/16 := by
  rw [lsa_Wc1t]
  rw [Fin.sum_univ_two, Fin.sum_univ_two, Fin.sum_univ_two, Fin.sum_univ_two,
    Fin.sum_univ_two, Fin.sum_univ_two]
  unfold isrEntryOf
  norm_num
  simp only [Equiv.Perm.coe_one, id_eq, abs_Pscaled_Wc1t]
  simp [Wc1, Complex.abs_ofReal]
  norm_num

theorem isrMean_Wc1t :
    isrMean (transform (Equiv.swap 0 1) Dc1 Wc1) Ac1 = 285/128 := by
  unfold isrMean
  rw [isrSum_Wc1t]
  norm_num

/-- C1 counterexample: at an assignment-cost tie, relabeling the estimate's
output channels changes the returned ISR.  Here `Wc1` and its
channel-swapped version (trivial all-ones scaling) both present a tied
assignment problem; the modelled solver (lexicographic tie-break, as the
spec describes) picks the identity assignment in both cases, and the two
evaluations give `10·log10(985/1152) ≠ 10·log10(285/128)`. -/
theorem ISR_not_perm_invariant_at_tie :
    ISR (transform (Equiv.swap 0 1) Dc1 Wc1) Ac1 ≠ ISR Wc1 Ac1 := by
  unfold ISR
  rw [isrMean_Wc1, isrMean_Wc1t]
  apply ne_of_gt
  have h : Real.logb 10 (985/1152) < Real.logb 10 (285/128) := by
    apply Real.logb_lt_logb (by norm_num) (by norm_num) (by norm_num)
  linarith

/-- Concrete demixing estimate for the C3 analysis: the corrected product
has an exactly-zero diagonal term at frequency 0, channel 0. -/
noncomputable def Wc3 : FMat 2 2 :=
  ![!![((0:ℝ):ℂ), ((1:ℝ):ℂ); ((0:ℝ):ℂ), ((1:ℝ):ℂ)],
    !![((1:ℝ):ℂ), ((1/2:ℝ):ℂ); ((1/2:ℝ):ℂ), ((1:ℝ):ℂ)]]

/-- Identity mixing matrix for the C3 analysis. -/
noncomputable def Ac3 : FMat 2 2 := fun _ => 1

theorem scale_Wc3 (f : Fin 2) (r : Fin 2) : scale Wc3 Ac3 f r = 1 := by
  unfold scale
  rw [sup2]
  have h1 : Pprod Wc3 Ac3 = Wc3 := Pprod_one Wc3
  rw [h1]
  fin_cases f <;> fin_cases r <;> simp [Wc3, Complex.abs_ofReal] <;> norm_num

theorem Pscaled_Wc3 : Pscaled Wc3 Ac3 = Wc3 := by
  funext f
  ext r c
  have h1 : Pprod Wc3 Ac3 = Wc3 := Pprod_one Wc3
  unfold Pscaled
  rw [Matrix.of_apply, scale_Wc3, h1]
  simp

theorem err_mat_Wc3 (i j : Fin 2) :
    err_mat Wc3 Ac3 i j = !![(9/16 : ℝ), 13/16; 5/16, 1/16] i j := by
  unfold err_mat errOf
  rw [Pscaled_Wc3, Matrix.of_apply]
  fin_cases i <;> fin_cases j <;>
    · rw [Fin.sum_univ_two, Fin.sum_univ_two, Fin.sum_univ_two]
      simp [Wc3, Complex.abs_ofReal]
      norm_num

theorem acost_Wc3_one : acost (err_mat Wc3 Ac3) 1 = 5/8 := by
  unfold acost
  rw [Fin.sum_univ_two]
  rw [show ((1 : Equiv.Perm (Fin 2)) 0) = 0 from rfl,
    show ((1 : Equiv.Perm (Fin 2)) 1) = 1 from rfl,
    err_mat_Wc3, err_mat_Wc3]
  norm_num

theorem acost_Wc3_swap : acost (err_mat Wc3 Ac3) (Equiv.swap 0 1) = 9/8 := by
  unfold acost
  rw [Fin.sum_univ_two]
  rw [show ((Equiv.swap (0:Fin 2) 1) 0) = 1 from rfl,
    show ((Equiv.swap (0:Fin 2) 1) 1) = 0 from rfl,
    err_mat_Wc3, err_mat_Wc3]
  norm_num

theorem isOpt_Wc3_one : isOpt (err_mat Wc3 Ac3) 1 := by
  intro τ
  rcases perm_fin_two τ with h | h <;> rw [h]
  · rw [acost_Wc3_one, acost_Wc3_swap]
    norm_num

theorem lsa_Wc3 : lsa (err_mat Wc3 Ac3) = 1 := lsa_eq_one_fin2 isOpt_Wc3_one

theorem isrSum_Wc3 :
    (∑ f : Fin 2, ∑ r : Fin 2, ∑ c : Fin 2,
      isrEntryOf (Pscaled Wc3 Ac3) (lsa (err_mat Wc3 Ac3)) f r c) = 1/2 := by
  rw [Pscaled_Wc3, lsa_Wc3]
  rw [Fin.sum_univ_two, Fin.sum_univ_two, Fin.sum_univ_two, Fin.sum_univ_two,
    Fin.sum_univ_two, Fin.sum_univ_two]
  unfold isrEntryOf
  norm_num
  simp [Wc3, Complex.abs_ofReal]
  norm_num

theorem isrMean_Wc3 : isrMean Wc3 Ac3 = 1/16 := by
  unfold isrMean
  rw [isrSum_Wc3]
  norm_num

/-- C3 counterexample: a concrete input whose scale- and permutation-
corrected product has an exactly-zero diagonal term, and on which the
evaluation nevertheless returns a value — the computation is total, no
error path exists.  (In IEEE arithmetic `numpy` divides by zero here,
emits only a `RuntimeWarning`, and `ISR` returns a non-finite float; in
this exact model the zero-denominator ratios collapse to the junk value
`0` and `ISR` returns `10·log10(1/16)`.) -/
theorem ISR_total_at_zero_diagonal :
    Pscaled Wc3 Ac3 0 (lsa (err_mat Wc3 Ac3) 0) 0 = 0 ∧
    ISR Wc3 Ac3 = 10 * Real.logb 10 (1/16) := by
  constructor
  · rw [Pscaled_Wc3, lsa_Wc3]
    simp [Wc3]
  · unfold ISR
    rw [isrMean_Wc3]

/-- C3 (amended): when a diagonal term of the corrected product is exactly
zero, the code does not fail: every ratio in that channel's row is formed
by dividing by the zero denominator (`numpy`: non-finite values with only
a warning; exact model: the junk value `0`), and the evaluation proceeds
to return a value. -/
theorem isrEntry_junk_of_zero_diagonal [NeZero n] (W A : FMat F n)
    (f : Fin F) (r c : Fin n)
    (h : Complex.abs (Pscaled W A f (lsa (err_mat W A) r) r) = 0) :
    isrEntryOf (Pscaled W A) (lsa (err_mat W A)) f r c = 0 := by
  unfold isrEntryOf
  by_cases hrc : r = c
  · rw [if_pos hrc]
  · rw [if_neg hrc, h]
    norm_num

/-- Witness for `isrEntry_junk_of_zero_diagonal` at the concrete zero-
diagonal input `(Wc3, Ac3)`, frequency 0, channel pair (0, 1). -/
theorem isrEntry_junk_of_zero_diagonal_witness :
    Complex.abs (Pscaled Wc3 Ac3 0 (lsa (err_mat Wc3 Ac3) 0) 0) = 0 ∧
    isrEntryOf (Pscaled Wc3 Ac3) (lsa (err_mat Wc3 Ac3)) 0 0 1 = 0 := by
  have h : Complex.abs (Pscaled Wc3 Ac3 0 (lsa (err_mat Wc3 Ac3) 0) 0) = 0 := by
    rw [Pscaled_Wc3, lsa_Wc3]
    simp [Wc3]
  exact ⟨h, isrEntry_junk_of_zero_diagonal Wc3 Ac3 0 0 1 h⟩

theorem Pprod_one_left (A : FMat F n) : Pprod (fun _ => 1) A = A := by
  funext f
  unfold Pprod
  rw [one_mul]

/-- The initialisation filter `demix_init` of `one_loop` (lines 126-135): the PCA whitening filter
when PCA initialisation is requested, the identity stack otherwise. -/
noncomputable def demix_init (usePca : Bool) (pcaFilt : FMat F n) : FMat F n :=
  if usePca then pcaFilt else fun _ => 1

/-- The ISR recorded by the pre-algorithm callback invocation (line 163):
the callback (line 154) computes `ISR(loc_demix @ demix_init, mix_mat)`
and is first called with `loc_demix = eye`. -/
noncomputable def firstIsrPoint [NeZero n] (usePca : Bool)
    (pcaFilt mixMat : FMat F n) : ℝ :=
  ISR (fun f => 1 * demix_init usePca pcaFilt f) mixMat

/-- The cost functional of the callback (lines 157-159):
`np.sum(np.linalg.norm(Y, axis=1)) - 2 * Y.shape[0] * np.sum(logdet)`,
with `Y` of shape `(n_frames, n_freq, n_chan)` and `logdet` the
per-frequency `log|det|` of the demixing stack. -/
noncomputable def trialCost (T : ℕ) (Y : Fin T → Fin F → Fin n → ℂ)
    (Dm : FMat F n) : ℝ :=
  (∑ t : Fin T, ∑ c : Fin n, Real.sqrt (∑ f : Fin F, Complex.abs (Y t f c) ^ 2))
    - 2 * T * ∑ f : Fin F, Real.log (Complex.abs (Dm f).det)

/-- The cost recorded by the pre-algorithm callback invocation (line 163):
`Y` is the raw mixture and `loc_demix` the identity stack. -/
noncomputable def firstCostPoint (T : ℕ) (mix : Fin T → Fin F → Fin n → ℂ) : ℝ :=
  trialCost T mix (fun _ => (1 : Matrix (Fin n) (Fin n) ℂ))

/-- C7 (amended): the first trajectory point, recorded before the
separation algorithm runs, carries the cost of the raw mixture (the
log-determinant correction vanishes on the identity), and the ISR of the
*initialisation filter*: without PCA this is the identity filter — the raw
mixture's ISR — but with PCA it is `ISR(pca_filter, mix_mat)`, not the raw
mixture's ISR. -/
theorem first_trajectory_point [NeZero n] (pcaFilt mixMat : FMat F n)
    (T : ℕ) (mix : Fin T → Fin F → Fin n → ℂ) :
    firstIsrPoint false pcaFilt mixMat = ISR (fun _ => 1) mixMat ∧
    firstIsrPoint true pcaFilt mixMat = ISR pcaFilt mixMat ∧
    firstCostPoint T mix
      = ∑ t : Fin T, ∑ c : Fin n, Real.sqrt (∑ f : Fin F, Complex.abs (mix t f c) ^ 2) := by
  refine ⟨?_, ?_, ?_⟩
  · unfold firstIsrPoint
    have h : (fun f => 1 * demix_init false pcaFilt f)
        = (fun _ : Fin F => (1 : Matrix (Fin n) (Fin n) ℂ)) := by
      funext f
      rw [one_mul]
      rfl
    rw [h]
  · unfold firstIsrPoint
    have h : (fun f => 1 * demix_init true pcaFilt f) = pcaFilt := by
      funext f
      rw [one_mul]
      rfl
    rw [h]
  · unfold firstCostPoint trialCost
    have h : Complex.abs (Matrix.det (1 : Matrix (Fin n) (Fin n) ℂ)) = 1 := by
      rw [Matrix.det_one, map_one]
    simp [h]

/-- Zero raw mixture used by the C7 witness (1 frame, 1 bin, 2 channels). -/
noncomputable def mix0 : Fin 1 → Fin 1 → Fin 2 → ℂ := fun _ _ _ => 0

/-- Witness for `first_trajectory_point` at a concrete input. -/
theorem first_trajectory_point_witness :
    firstIsrPoint false Wc2 Wc2 = ISR (fun _ => 1) Wc2 ∧
    firstIsrPoint true Wc2 Wc2 = ISR Wc2 Wc2 ∧
    firstCostPoint 1 mix0
      = ∑ t : Fin 1, ∑ c : Fin 2, Real.sqrt (∑ f : Fin 1,
          Complex.abs (mix0 t f c) ^ 2) :=
  first_trajectory_point Wc2 Wc2 1 mix0

/-- Concrete PCA whitening filter for the C7 counterexample. -/
noncomputable def Wc7 : FMat 1 2 :=
  fun _ => !![((1:ℝ):ℂ), ((1:ℝ):ℂ); ((0:ℝ):ℂ), ((1:ℝ):ℂ)]

/-- Concrete true mixing matrix for the C7 counterexample. -/
noncomputable def Ac7 : FMat 1 2 :=
  fun _ => !![((1:ℝ):ℂ), ((1/2:ℝ):ℂ); ((1/2:ℝ):ℂ), ((1:ℝ):ℂ)]

theorem Pprod_id_Ac7 : Pprod (fun _ => 1) Ac7 = Ac7 := Pprod_one_left Ac7

theorem scale_id_Ac7 (f : Fin 1) (r : Fin 2) : scale (fun _ => 1) Ac7 f r = 1 := by
  unfold scale
  rw [sup2, Pprod_id_Ac7]
  fin_cases f
  fin_cases r <;> simp [Ac7, Complex.abs_ofReal] <;> norm_num

theorem Pscaled_id_Ac7 : Pscaled (fun _ => 1) Ac7 = Ac7 := by
  funext f
  ext r c
  unfold Pscaled
  rw [Matrix.of_apply, scale_id_Ac7, Pprod_id_Ac7]
  simp

theorem err_mat_id_Ac7 (i j : Fin 2) :
    err_mat (fun _ => 1) Ac7 i j = !![(1/8 : ℝ), 5/8; 5/8, 1/8] i j := by
  unfold err_mat errOf
  rw [Pscaled_id_Ac7, Matrix.of_apply]
  fin_cases i <;> fin_cases j <;>
    · rw [Fin.sum_univ_one, Fin.sum_univ_two]
      simp [Ac7, Complex.abs_ofReal]
      norm_num

theorem isOpt_id_Ac7_one : isOpt (err_mat (fun _ => 1) Ac7) 1 := by
  intro τ
  have h1 : acost (err_mat (fun _ => 1) Ac7) 1 = 1/4 := by
    unfold acost
    rw [Fin.sum_univ_two]
    rw [show ((1 : Equiv.Perm (Fin 2)) 0) = 0 from rfl,
      show ((1 : Equiv.Perm (Fin 2)) 1) = 1 from rfl,
      err_mat_id_Ac7, err_mat_id_Ac7]
    norm_num
  have h2 : acost (err_mat (fun _ => 1) Ac7) (Equiv.swap 0 1) = 5/4 := by
    unfold acost
    rw [Fin.sum_univ_two]
    rw [show ((Equiv.swap (0:Fin 2) 1) 0) = 1 from rfl,
      show ((Equiv.swap (0:Fin 2) 1) 1) = 0 from rfl,
      err_mat_id_Ac7, err_mat_id_Ac7]
    norm_num
  rcases perm_fin_two τ with h | h <;> rw [h]
  · rw [h1, h2]
    norm_num

theorem lsa_id_Ac7 : lsa (err_mat (fun _ => 1) Ac7) = 1 :=
  lsa_eq_one_fin2 isOpt_id_Ac7_one

theorem isrMean_id_Ac7 : isrMean (fun _ => 1) Ac7 = 1/8 := by
  unfold isrMean
  rw [Pscaled_id_Ac7, lsa_id_Ac7]
  rw [Fin.sum_univ_one, Fin.sum_univ_two, Fin.sum_univ_two, Fin.sum_univ_two]
  unfold isrEntryOf
  norm_num
  simp [Ac7, Complex.abs_ofReal]
  norm_num

theorem Pprod_Wc7 :
    Pprod Wc7 Ac7 = fun _ => !![((3/2:ℝ):ℂ), ((3/2:ℝ):ℂ); ((1/2:ℝ):ℂ), ((1:ℝ):ℂ)] := by
  funext f
  ext r c
  unfold Pprod
  rw [Matrix.mul_apply, Fin.sum_univ_two]
  fin_cases r <;> fin_cases c <;> (try simp [Wc7, Ac7]) <;> (try push_cast) <;>
    (try norm_num)

theorem scale_Wc7 (f : Fin 1) (r : Fin 2) :
    scale Wc7 Ac7 f r = ![(3/2 : ℝ), 1] r := by
  unfold scale
  rw [sup2, Pprod_Wc7]
  fin_cases f
  fin_cases r <;> (try simp [Complex.abs_ofReal]) <;> (try norm_num)

theorem Pscaled_Wc7 :
    Pscaled Wc7 Ac7 = fun _ => !![((1:ℝ):ℂ), ((1:ℝ):ℂ); ((1/2:ℝ):ℂ), ((1:ℝ):ℂ)] := by
  funext f
  ext r c
  unfold Pscaled
  rw [Matrix.of_apply, scale_Wc7, Pprod_Wc7]
  fin_cases r <;> fin_cases c <;> (try simp) <;> (try push_cast) <;> (try norm_num)

theorem err_mat_Wc7 (i j : Fin 2) :
    err_mat Wc7 Ac7 i j = !![(1/2 : ℝ), 5/8; 1/2, 1/8] i j := by
  unfold err_mat errOf
  rw [Pscaled_Wc7, Matrix.of_apply]
  fin_cases i <;> fin_cases j <;> rw [Fin.sum_univ_one, Fin.sum_univ_two] <;>
    (try simp [Complex.abs_ofReal]) <;> (try norm_num)

theorem isOpt_Wc7_one : isOpt (err_mat Wc7 Ac7) 1 := by
  intro τ
  have h1 : acost (err_mat Wc7 Ac7) 1 = 5/8 := by
    unfold acost
    rw [Fin.sum_univ_two]
    rw [show ((1 : Equiv.Perm (Fin 2)) 0) = 0 from rfl,
      show ((1 : Equiv.Perm (Fin 2)) 1) = 1 from rfl,
      err_mat_Wc7, err_mat_Wc7]
    norm_num
  have h2 : acost (err_mat Wc7 Ac7) (Equiv.swap 0 1) = 9/8 := by
    unfold acost
    rw [Fin.sum_univ_two]
    rw [show ((Equiv.swap (0:Fin 2) 1) 0) = 1 from rfl,
      show ((Equiv.swap (0:Fin 2) 1) 1) = 0 from rfl,
      err_mat_Wc7, err_mat_Wc7]
    norm_num
  rcases perm_fin_two τ with h | h <;> rw [h]
  · rw [h1, h2]
    norm_num

theorem lsa_Wc7 : lsa (err_mat Wc7 Ac7) = 1 := lsa_eq_one_fin2 isOpt_Wc7_one

theorem isrMean_Wc7 : isrMean Wc7 Ac7 = 5/16 := by
  unfold isrMean
  rw [Pscaled_Wc7, lsa_Wc7]
  rw [Fin.sum_univ_one, Fin.sum_univ_two, Fin.sum_univ_two, Fin.sum_univ_two]
  unfold isrEntryOf
  (try norm_num) <;> (try simp [Complex.abs_ofReal]) <;> (try norm_num)

/-- C7 counterexample: with PCA initialisation the first recorded ISR point
is the ISR of the whitening filter, which differs from the ISR of the raw
mixture (identity demixing) at this concrete trial:
`10·log10(5/16) ≠ 10·log10(1/8)`. -/
theorem first_isr_point_not_raw_mixture_isr :
    firstIsrPoint true Wc7 Ac7 ≠ ISR (fun _ => 1) Ac7 := by
  have hl : firstIsrPoint true Wc7 Ac7 = ISR Wc7 Ac7 := by
    unfold firstIsrPoint
    have h : (fun f => 1 * demix_init true Wc7 f) = Wc7 := by
      funext f
      rw [one_mul]
      rfl
    rw [h]
  rw [hl]
  unfold ISR
  rw [isrMean_Wc7, isrMean_id_Ac7]
  apply ne_of_gt
  have h : Real.logb 10 (1/8) < Real.logb 10 (5/16) := by
    apply Real.logb_lt_logb (by norm_num) (by norm_num) (by norm_num)
  linarith

/-- C10: `scale_permute` divides by each row's largest entry magnitude with
no zero guard: the divisor `scale[f, r]` is nonzero exactly when row `r` of
`P[f] = (W @ A)[f]` has at least one nonzero entry.  In particular, for a
row that is entirely zero the code divides by exactly zero (in `numpy` the
division proceeds and produces non-finite values, with no error raised). -/
theorem scale_ne_zero_iff [NeZero n] (W A : FMat F n) (f : Fin F) (r : Fin n) :
    (∃ c, Pprod W A f r c ≠ 0) ↔ scale W A f r ≠ 0 := by
  constructor
  · rintro ⟨c, hc⟩
    have hpos : 0 < Complex.abs (Pprod W A f r c) := Complex.abs.pos hc
    have hle : Complex.abs (Pprod W A f r c) ≤ scale W A f r := by
      unfold scale
      exact Finset.le_sup' (fun c => Complex.abs (Pprod W A f r c)) (Finset.mem_univ c)
    exact ne_of_gt (lt_of_lt_of_le hpos hle)
  · intro hs
    by_contra h
    push_neg at h
    apply hs
    apply le_antisymm
    · unfold scale
      rw [Finset.sup'_le_iff]
      intro c _
      rw [h c, map_zero]
    · exact scale_nonneg W A f r

/-- Witness for `scale_ne_zero_iff` at the concrete input `(Wc2, Ac2)`,
frequency 0, row 0 (whose scale evaluates to 1). -/
theorem scale_ne_zero_iff_witness :
    ((∃ c, Pprod Wc2 Ac2 0 0 c ≠ 0) ↔ scale Wc2 Ac2 0 0 ≠ 0) ∧
    scale Wc2 Ac2 0 0 = 1 :=
  ⟨scale_ne_zero_iff Wc2 Ac2 0 0, scale_Wc2 0 0⟩

/-- A `numpy`-style buffer store: a map from buffer identities to complex
`(F, n, n)` array contents, together with the number of live buffers.
In-place operations (`/=`) write to an existing buffer; array-producing
operations (`@`, `.copy()`, fancy indexing) allocate fresh buffers. -/
structure Store (F n : ℕ) where
  mem : ℕ → FMat F n
  len : ℕ

/-- Point update of the buffer map. -/
def updateMem (m : ℕ → FMat F n) (i : ℕ) (b : FMat F n) : ℕ → FMat F n :=
  fun j => if j = i then b else m j

/-- Allocate a fresh buffer holding `b`; returns the new store and the
fresh buffer's identity. -/
def alloc (s : Store F n) (b : FMat F n) : Store F n × ℕ :=
  (⟨updateMem s.mem s.len b, s.len + 1⟩, s.len)

/-- In-place write to buffer `i`. -/
def write (s : Store F n) (i : ℕ) (b : FMat F n) : Store F n :=
  ⟨updateMem s.mem i b, s.len⟩

/-- Buffer-level model of `scale_permute` (lines 64-86), with the caller's
`W` and `A` passed as buffer identities `wi` and `ai`.  `P = W @ A`
allocates, `W = W.copy()` allocates, the two `/= scale` statements write
in place to those fresh buffers, and the two fancy-indexing permutation
steps allocate again.  Returns the final store and the identities of the
returned `W` and `P` buffers. -/
noncomputable def scale_permute [NeZero n] (s : Store F n) (wi ai : ℕ) :
    Store F n × ℕ × ℕ :=
  let s1p := alloc s (fun f => s.mem wi f * s.mem ai f)
  let s1 := s1p.1
  let p := s1p.2
  let s2p := alloc s1 (s1.mem wi)
  let s2 := s2p.1
  let w2 := s2p.2
  let sc : Fin F → Fin n → ℝ := fun f r =>
    univ.sup' univ_nonempty fun c => Complex.abs (s2.mem p f r c)
  let s3 := write s2 w2 (fun f => Matrix.of fun r c => s2.mem w2 f r c / ((sc f r : ℝ) : ℂ))
  let s4 := write s3 p (fun f => Matrix.of fun r c => s3.mem p f r c / ((sc f r : ℝ) : ℂ))
  let σ := lsa (errOf (s4.mem p))
  let s5p := alloc s4 (fun f => Matrix.of fun r c => s4.mem w2 f (σ r) c)
  let s5 := s5p.1
  let w3 := s5p.2
  let s6p := alloc s5 (fun f => Matrix.of fun r c => s5.mem p f (σ r) c)
  (s6p.1, w3, s6p.2)

/-- Buffer-level model of `ISR` (lines 89-104): calls `scale_permute` and
reads only the returned (fresh) `P` buffer; the `isr` array is a fresh
`np.zeros` and the return value a scalar. -/
noncomputable def ISRstore [NeZero n] (s : Store F n) (wi ai : ℕ) : Store F n × ℝ :=
  let t := scale_permute s wi ai
  (t.1, 10 * Real.logb 10
    ((∑ f : Fin F, ∑ r : Fin n, ∑ c : Fin n, isrEntryOf (t.1.mem t.2.2) 1 f r c)
      / ((F * n * n : ℕ) : ℝ)))

/-- C9: neither `scale_permute` nor `ISR` mutates any buffer the caller
already held — in particular the caller's `W` and `A` are unchanged — and
the two arrays `scale_permute` returns are freshly allocated buffers, not
aliases of any pre-existing one. -/
theorem scale_permute_no_mutation [NeZero n] (s : Store F n) (wi ai j : ℕ)
    (hj : j < s.len) :
    (scale_permute s wi ai).1.mem j = s.mem j ∧
    s.len ≤ (scale_permute s wi ai).2.1 ∧
    s.len ≤ (scale_permute s wi ai).2.2 ∧
    (ISRstore s wi ai).1.mem j = s.mem j := by
  have hmem : (scale_permute s wi ai).1.mem j = s.mem j := by
    unfold scale_permute
    dsimp only [alloc, write, updateMem]
    rw [if_neg (by omega), if_neg (by omega), if_neg (by omega), if_neg (by omega),
      if_neg (by omega), if_neg (by omega)]
  refine ⟨hmem, ?_, ?_, hmem⟩
  · unfold scale_permute
    dsimp only [alloc, write]
    omega
  · unfold scale_permute
    dsimp only [alloc, write]
    omega

/-- All-zero two-buffer store used by the C9 witness. -/
noncomputable def store0 : Store 1 1 := ⟨fun _ => fun _ => 0, 2⟩

/-- Witness for `scale_permute_no_mutation`: a concrete two-buffer store,
reading back buffer 0 (the caller's `W`) after `scale_permute`/`ISR` on
buffers 0 and 1. -/
theorem scale_permute_no_mutation_witness :
    (0 : ℕ) < store0.len ∧
    ((scale_permute store0 0 1).1.mem 0 = store0.mem 0 ∧
     store0.len ≤ (scale_permute store0 0 1).2.1 ∧
     store0.len ≤ (scale_permute store0 0 1).2.2 ∧
     (ISRstore store0 0 1).1.mem 0 = store0.mem 0) :=
  ⟨by norm_num [store0], scale_permute_no_mutation store0 0 1 0 (by norm_num [store0])⟩

/-- Model of `np.arange(start, stop, step)` over the naturals: the values
`start, start + step, ...` that are below `stop`. -/
def arange (start stop step : ℕ) : List ℕ :=
  (List.range ((stop - start + step - 1) / step)).map fun k => start + step * k

/-- The checkpoint schedule chosen by `one_loop` (lines 145-148):
`np.arange(2, n_iter + 1, 2)` for algorithms registered as dual-update in
the external `bss.is_dual_update` registry (modelled by the boolean
`isDual`), `np.arange(1, n_iter + 1)` otherwise. -/
def callback_checkpoints (isDual : Bool) (nIter : ℕ) : List ℕ :=
  if isDual then arange 2 (nIter + 1) 2 else arange 1 (nIter + 1) 1

/-- C6: dual-update algorithms are sampled at the even iterations
`2, 4, ..., n_iter` (the even numbers of `[2, n_iter]`), all other
algorithms at every iteration `1, 2, ..., n_iter`. -/
theorem checkpoint_schedule (nIter : ℕ) :
    callback_checkpoints true nIter = (List.range (nIter / 2)).map (fun k => 2 * k + 2) ∧
    callback_checkpoints false nIter = (List.range nIter).map (fun k => k + 1) := by
  constructor
  · show arange 2 (nIter + 1) 2 = _
    unfold arange
    rw [show (nIter + 1 - 2 + 2 - 1) / 2 = nIter / 2 by omega]
    exact List.map_congr_left fun k _ => by omega
  · show arange 1 (nIter + 1) 1 = _
    unfold arange
    rw [show (nIter + 1 - 1 + 1 - 1) / 1 = nIter by omega]
    exact List.map_congr_left fun k _ => by omega

/-- One entry of the configured scenario list (`config["params"]`). -/
structure ScenParam where
  n_freq : ℕ
  n_chan : ℕ
  pca : Bool

/-- One task tuple built by `gen_args` (lines 196-208).  The constant
fields `distrib` and `algos` and the shared queue handle carry no per-task
data and are omitted. -/
structure TaskArg where
  param_index : ℕ
  n_freq : ℕ
  n_chan : ℕ
  pca : Bool
  n_frames : ℕ
  seed : ℕ

/-- The nested loop of `gen_args` (lines 193-208), with `i` the index of
the first remaining scenario.  `draw k` stands for the `k`-th value of the
`numpy` random stream after `np.random.seed(master_seed)`; the `k`-th
`np.random.randint(2 ** 32)` call of the loop is at `k = i * n_repeat + r`.
The stream itself is external library state and is modelled from the spec
("a single seeded random stream initialized from the master seed") as an
opaque function of the master seed. -/
def gen_args_aux (draw : ℕ → ℕ) (nRepeat nFrames : ℕ) :
    List ScenParam → ℕ → List TaskArg
  | [], _ => []
  | p :: ps, i =>
      ((List.range nRepeat).map fun r =>
        ⟨i, p.n_freq, p.n_chan, p.pca, nFrames, draw (i * nRepeat + r)⟩)
        ++ gen_args_aux draw nRepeat nFrames ps (i + 1)

/-- Model of `gen_args` (lines 188-210). -/
def gen_args (draw : ℕ → ℕ) (nRepeat nFrames : ℕ) (params : List ScenParam) :
    List TaskArg :=
  gen_args_aux draw nRepeat nFrames params 0

theorem gen_args_aux_seeds (draw : ℕ → ℕ) (R nFrames : ℕ) :
    ∀ (ps : List ScenParam) (i : ℕ),
      (gen_args_aux draw R nFrames ps i).map TaskArg.seed
        = (List.range (ps.length * R)).map fun k => draw (i * R + k) := by
  intro ps
  induction ps with
  | nil => intro i; simp [gen_args_aux]
  | cons p ps ih =>
    intro i
    rw [gen_args_aux, List.map_append, List.map_map, ih (i + 1)]
    rw [show (p :: ps).length * R = R + ps.length * R by simp [Nat.succ_mul]; ring]
    rw [List.range_add R (ps.length * R), List.map_append]
    congr 1
    rw [List.map_map]
    exact List.map_congr_left fun k _ => by
      show draw ((i + 1) * R + k) = draw (i * R + (R + k))
      congr 1
      ring

/-- C5: for every master seed `S` (instantiating the abstract seeded
stream) and repeat count `R`, the task generator emits
`len(params) * R` tasks whose ordered seed list is exactly the first
`len(params) * R` values of the single stream seeded from `S` — the same
list on every invocation, independent of everything else (no worker-count
input exists). -/
theorem gen_args_seed_stream (randStream : ℕ → ℕ → ℕ) (S R nFrames : ℕ)
    (params : List ScenParam) :
    (gen_args (randStream S) R nFrames params).map TaskArg.seed
      = (List.range (params.length * R)).map (randStream S) ∧
    (gen_args (randStream S) R nFrames params).length = params.length * R := by
  have h := gen_args_aux_seeds (randStream S) R nFrames params 0
  have h0 : (List.range (params.length * R)).map (fun k => randStream S (0 * R + k))
      = (List.range (params.length * R)).map (randStream S) :=
    List.map_congr_left fun k _ => by
      congr 1
      omega
  constructor
  · rw [gen_args, h, h0]
  · have hl := congrArg List.length (h.trans h0)
    rwa [List.length_map, List.length_map, List.length_range] at hl

/-- The ordered list of (scenario index, repetition index) pairs underlying
the generated task list: scenario-major, repetitions `0..R-1` inside each
scenario (lines 193-208). -/
def taskProd : ℕ → ℕ → List (ℕ × ℕ)
  | 0, _ => []
  | s + 1, R => taskProd s R ++ (List.range R).map fun r => (s, r)

/-- The aggregation loop of the driver (lines 263-267): the
`(pi, algo)` table cell collects, in results-list order, the `algo`
trajectory of every result whose scenario index is `pi`. -/
def aggregateCell {α : Type} (results : List (ℕ × (String → α))) (pi : ℕ)
    (algo : String) : List α :=
  (results.filter fun res => res.1 = pi).map fun res => res.2 algo

theorem taskProd_first_lt (S R : ℕ) : ∀ t ∈ taskProd S R, t.1 < S := by
  induction S with
  | zero => intro t ht; simp [taskProd] at ht
  | succ s ih =>
    intro t ht
    rw [taskProd, List.mem_append] at ht
    rcases ht with h | h
    · exact Nat.lt_succ_of_lt (ih t h)
    · obtain ⟨r, -, rfl⟩ := List.mem_map.mp h
      exact Nat.lt_succ_self s

theorem taskProd_filter (S R pi : ℕ) (hpi : pi < S) :
    (taskProd S R).filter (fun t => t.1 = pi)
      = (List.range R).map fun r => (pi, r) := by
  induction S with
  | zero => omega
  | succ s ih =>
    rw [taskProd, List.filter_append]
    by_cases hps : pi = s
    · subst hps
      have h1 : (taskProd pi R).filter (fun t => t.1 = pi) = [] := by
        rw [List.filter_eq_nil_iff]
        intro t ht
        have := taskProd_first_lt pi R t ht
        simp only [decide_eq_true_eq]
        omega
      have h2 : ((List.range R).map fun r => ((pi, r) : ℕ × ℕ)).filter
          (fun t => t.1 = pi) = (List.range R).map fun r => (pi, r) := by
        refine List.filter_eq_self.mpr fun a ha => ?_
        obtain ⟨r, -, rfl⟩ := List.mem_map.mp ha
        simp
      rw [h1, h2, List.nil_append]
    · have hlt : pi < s := by omega
      have h2 : ((List.range R).map fun r => ((s, r) : ℕ × ℕ)).filter
          (fun t => t.1 = pi) = [] := by
        rw [List.filter_eq_nil_iff]
        intro t ht
        obtain ⟨r, -, rfl⟩ := List.mem_map.mp ht
        simp only [decide_eq_true_eq]
        omega
      rw [ih hlt, h2, List.append_nil]

/-- C4 (amended): for every shuffled dispatch order of the generated task
list, every scenario index and every algorithm name, the `(scenario,
algorithm)` cell holds exactly `n_repeat` rows, and its rows are the
trajectories of repetitions `0..n_repeat-1` *up to the shuffle
permutation* — one row per repetition, in dispatch order (`pool.map`
returns results in argument order, so the completion order of the workers
is irrelevant), not in repetition-index order. -/
theorem aggregation_cell_rows {α : Type} (S R : ℕ) (l : List (ℕ × ℕ))
    (run : ℕ × ℕ → String → α) (pi : ℕ) (algo : String)
    (hperm : l.Perm (taskProd S R)) (hpi : pi < S) :
    (aggregateCell (l.map fun t => (t.1, run t)) pi algo).length = R ∧
    (aggregateCell (l.map fun t => (t.1, run t)) pi algo).Perm
      ((List.range R).map fun r => run (pi, r) algo) := by
  have hcell : aggregateCell (l.map fun t => (t.1, run t)) pi algo
      = (l.filter fun t => t.1 = pi).map fun t => run t algo := by
    unfold aggregateCell
    rw [List.filter_map]
    rw [List.map_map]
    rfl
  have hp : ((l.filter fun t => t.1 = pi).map fun t => run t algo).Perm
      ((List.range R).map fun r => run (pi, r) algo) := by
    have h1 := (hperm.filter fun t => t.1 = pi).map fun t => run t algo
    rw [taskProd_filter S R pi hpi, List.map_map] at h1
    exact h1
  constructor
  · rw [hcell, hp.length_eq, List.length_map, List.length_range]
  · rw [hcell]
    exact hp

/-- C4 counterexample: one scenario, two repetitions, dispatched in the
shuffled order `[repetition 1, repetition 0]` (a permutation of the
generated task list).  The `(0, "a")` cell then holds the repetition-1 row
first: rows follow dispatch order, not repetition index. -/
theorem aggregation_not_repetition_ordered :
    ([((0:ℕ), (1:ℕ)), (0, 0)]).Perm (taskProd 1 2) ∧
    aggregateCell (([((0:ℕ), (1:ℕ)), (0, 0)]).map fun t => (t.1, fun _ : String => t))
        0 "a"
      ≠ (List.range 2).map fun r => ((0, r) : ℕ × ℕ) := by
  constructor
  · decide
  · decide

/-- Witness for `aggregation_cell_rows` at the concrete dispatch order
`[(0, 1), (0, 0)]` of one scenario with two repetitions. -/
theorem aggregation_cell_rows_witness :
    ([((0:ℕ), (1:ℕ)), (0, 0)]).Perm (taskProd 1 2) ∧ (0:ℕ) < 1 ∧
    ((aggregateCell (([((0:ℕ), (1:ℕ)), (0, 0)]).map fun t => (t.1, fun _ : String => t))
        0 "a").length = 2 ∧
      (aggregateCell (([((0:ℕ), (1:ℕ)), (0, 0)]).map fun t => (t.1, fun _ : String => t))
        0 "a").Perm ((List.range 2).map fun r => ((0, r) : ℕ × ℕ))) :=
  ⟨by decide, by decide,
    aggregation_cell_rows 1 2 [((0:ℕ), (1:ℕ)), (0, 0)] (fun t _ => t) 0 "a"
      (by decide) (by decide)⟩

/-- Whether an external algorithm call returned normally. -/
def isOk {ε α : Type} : Except ε α → Bool
  | Except.ok _ => true
  | Except.error _ => false

/-- The per-algorithm loop of `one_loop` (lines 140-181) threaded through
the exception monad: each configured algorithm's external call either
returns a trajectory or raises; the first raise aborts the loop and
propagates out of `one_loop` (the spec's failure semantics: errors
propagate to the caller uncaught). -/
def runAlgos {ε α : Type} : List (Except ε α) → Except ε (List α)
  | [] => Except.ok []
  | r :: rs => r.bind fun a => (runAlgos rs).map fun as => a :: as

/-- Number of completion signals `one_loop` posts to the progress queue:
`queue.put(True)` (line 183) runs exactly once, after the whole algorithm
loop; it is not protected by any `finally`, so an exception inside the
loop leaves the function before the signal is posted. -/
def oneLoopSignals {ε α : Type} (runs : List (Except ε α)) : ℕ :=
  match runAlgos runs with
  | Except.ok _ => 1
  | Except.error _ => 0

/-- C8 counterexample: a task whose (single) algorithm call raises posts
zero completion signals, not one — the progress tracker's counter is never
decremented for a failed task. -/
theorem failed_task_posts_no_signal :
    oneLoopSignals [(Except.error 0 : Except ℕ ℕ)] ≠ 1 := by
  decide

/-- C8 (amended): a dispatched task posts exactly one completion signal if
and only if every algorithm call in it returns normally; a task in which
some call raises posts no signal at all (so the tracker, which waits for
one signal per task, would never reach zero after a failure). -/
theorem oneLoopSignals_eq_one_iff {ε α : Type} (runs : List (Except ε α)) :
    oneLoopSignals runs = 1 ↔ ∀ r ∈ runs, isOk r = true := by
  induction runs with
  | nil => simp [oneLoopSignals, runAlgos]
  | cons r rs ih =>
    cases r with
    | ok a =>
      have hstep : oneLoopSignals (Except.ok a :: rs) = oneLoopSignals rs := by
        unfold oneLoopSignals
        have hred : runAlgos (Except.ok a :: rs) = (runAlgos rs).map fun as => a :: as :=
          rfl
        rw [hred]
        cases hrs : runAlgos rs <;> rfl
      rw [hstep]
      simp only [List.mem_cons]
      constructor
      · intro h x hx
        rcases hx with h1 | h1
        · rw [h1]; rfl
        · exact (ih.mp h) x h1
      · intro h
        exact ih.mpr fun x hx => h x (Or.inr hx)
    | error e =>
      have hstep : oneLoopSignals (Except.error e :: rs) = 0 := by
        unfold oneLoopSignals
        have hred : runAlgos (Except.error e :: rs) = Except.error e := rfl
        rw [hred]
      rw [hstep]
      simp [isOk]

end Experiment
